import Mathlib

/-!
Shallow embedding of src/rust/engine/src/fs.rs: the path/Stat data model, the
PathGlobs pattern parser, bounded symlink-chain expansion, and PathGlob
application over an abstract filesystem context.

Modelling conventions:
- Rust path values (PathBuf / Path / OsString components) are modelled as
  their lists of components (List String); Path::iter over an already-split
  relative pattern is then the identity, and PathBuf::push appends one
  component, so the source's join over a slice of components is the slice
  itself.
- Rust panics (Vec::drain with an out-of-range bound, out-of-bounds Vec
  indexing, and the placeholder failure points in apply_path_glob) are
  modelled as the value none of an Option-typed result.
- Fallible backend calls (the FSContext trait methods) return Except K,
  where K is the caller-chosen continuation type.
-/

namespace Fs

/-- A filesystem path, modelled as its list of components. -/
abbrev PathBuf := List String

/-- A symlink path (struct Link in the source). -/
structure Link where
  path : PathBuf
  deriving DecidableEq

/-- A directory path (struct Dir in the source). -/
structure Dir where
  path : PathBuf
  deriving DecidableEq

/-- A file path (struct File in the source). -/
structure File where
  path : PathBuf
  deriving DecidableEq

/-- Stat: a path classified without following symlinks (enum Stat). -/
inductive Stat where
  | link (l : Link)
  | dir (d : Dir)
  | file (f : File)
  deriving DecidableEq

/-- Outcome of expanding a symlink chain (enum LinkExpansion). -/
inductive LinkExpansion where
  | file (f : File)
  | dir (d : Dir)
  | loop (msg : String)
  deriving DecidableEq

/-- A symbolic path paired with the canonical Stat underlying it
(struct PathStat). -/
structure PathStat where
  path : PathBuf
  stat : Stat
  deriving DecidableEq

/-- One glob unit (enum PathGlob). -/
inductive PathGlob where
  | root
  | wildcard (canonical_dir : Dir) (symbolic_path : PathBuf) (wildcard : String)
  | dirWildcard (canonical_dir : Dir) (symbolic_path : PathBuf) (wildcard : String)
      (remainder : PathBuf)
  deriving DecidableEq

/-- The sequence of glob units produced by parsing (struct PathGlobs). -/
abbrev PathGlobs := List PathGlob

def SINGLE_STAR : String := "*"

def DOUBLE_STAR : String := "**"

def MAX_LINK_EXPANSION_ATTEMPTS : Nat := 64

/-- The free function join: push each component onto a fresh PathBuf; under
the component-list model this is the identity on the slice. -/
def join (components : List String) : PathBuf := components

/-- PathGlob::root_stat. -/
def root_stat : PathStat :=
  { path := [], stat := Stat.dir { path := [] } }

/-- The source's while loop inside normalize_doublestar: starting at index 1,
count how many consecutive components equal DOUBLE_STAR; applied to the tail
of the component vector this yields idx - 1. -/
def doublestarRun : List String → Nat
  | [] => 0
  | c :: rest => if c = DOUBLE_STAR then 1 + doublestarRun rest else 0

/-- PathGlobs::normalize_doublestar. The source computes idx (1 plus the run
of DOUBLE_STAR components starting at index 1) and calls parts.drain(..idx),
removing the first idx components. On an empty vector drain(..1) is out of
range and panics (modelled as none); otherwise the first component and the
following doublestar run are removed. -/
def normalize_doublestar (parts : List String) : Option (List String) :=
  match parts with
  | [] => none
  | _ :: rest => some (rest.drop (doublestarRun rest))

/-- The body of PathGlobs::parse after normalize_doublestar has run: the
dispatch on the shape of the normalized component vector. The root check
reads parts[0] only behind a length guard; the DOUBLE_STAR comparison at
parts[0] is unguarded, so empty parts panic there (modelled as none). -/
def parseParts (canonical_dir : Dir) (symbolic_path : PathBuf) (parts : List String) :
    Option (List PathGlob) :=
  if canonical_dir.path = ["."] ∧ parts = ["."] then
    -- A request for the root path.
    some [PathGlob.root]
  else
    match parts with
    | [] => none
    | p0 :: rest =>
      if p0 = DOUBLE_STAR then
        match rest with
        | [] =>
          -- A trailing '/**' matches everything inside, with infinite depth.
          some [PathGlob.dirWildcard canonical_dir symbolic_path SINGLE_STAR
                  [DOUBLE_STAR],
                PathGlob.wildcard canonical_dir symbolic_path SINGLE_STAR]
        | p1 :: rest2 =>
          -- Double wildcards are recursive: one remainder with the double
          -- wildcard included, and one without.
          let pathglob_with_doublestar :=
            PathGlob.dirWildcard canonical_dir symbolic_path SINGLE_STAR
              (join (p0 :: p1 :: rest2))
          let pathglob_no_doublestar :=
            match rest2 with
            | [] => PathGlob.wildcard canonical_dir symbolic_path p1
            | _ :: _ =>
              PathGlob.dirWildcard canonical_dir symbolic_path p1 (join rest2)
          some [pathglob_with_doublestar, pathglob_no_doublestar]
      else
        match rest with
        | [] =>
          -- This is the path basename.
          some [PathGlob.wildcard canonical_dir symbolic_path p0]
        | _ :: _ =>
          -- This is a path dirname.
          some [PathGlob.dirWildcard canonical_dir symbolic_path p0 (join rest)]

/-- PathGlobs::parse: normalize the component vector (propagating its panic),
then dispatch on the resulting shape. -/
def parse (canonical_dir : Dir) (symbolic_path : PathBuf) (filespec : PathBuf) :
    Option (List PathGlob) :=
  (normalize_doublestar filespec).bind (parseParts canonical_dir symbolic_path)

/-- PathGlobs::create: flat_map of parse over the filespecs, with the
canonical dir and symbolic path both taken from relative_to. A panic in any
parse propagates (none). -/
def create (relative_to : Dir) (filespecs : List PathBuf) : Option (List PathGlob) :=
  (filespecs.mapM (fun filespec => parse relative_to relative_to.path filespec)).map
    List.flatten

/-- The trait FSContext of backend primitives, parameterized on the
continuation type K; modelled as a record of the three methods. -/
structure FSContext (K : Type) where
  read_link : Link → Except K PathBuf
  stat : PathBuf → Except K Stat
  scandir : Dir → Except K (List Stat)

/-- The diagnostic built at the bound check of expand_link. -/
def loopDiagnostic (link : Link) : String :=
  "Encountered a symlink loop while expanding " ++ String.intercalate "/" link.path

/-- The loop body of FSContext::expand_link. The source counts attempts
upward from 0 and returns the Loop outcome as soon as attempts + 1 exceeds
MAX_LINK_EXPANSION_ATTEMPTS; here fuel counts the remaining attempts
(fuel = MAX_LINK_EXPANSION_ATTEMPTS - attempts), so fuel = 0 is exactly the
bound check firing. The second component counts the loop iterations that
performed backend calls (one read_link, then one stat unless read_link
returned a continuation). -/
def expandLinkGo (ctx : FSContext K) : Nat → Link → Except K LinkExpansion × Nat
  | 0, link => (Except.ok (LinkExpansion.loop (loopDiagnostic link)), 0)
  | fuel + 1, link =>
    match ctx.read_link link with
    | Except.error t => (Except.error t, 1)
    | Except.ok p =>
      match ctx.stat p with
      | Except.error t => (Except.error t, 1)
      | Except.ok (Stat.link l) =>
        -- The link pointed to another link. Continue.
        let r := expandLinkGo ctx fuel l
        (r.1, r.2 + 1)
      | Except.ok (Stat.dir d) => (Except.ok (LinkExpansion.dir d), 1)
      | Except.ok (Stat.file f) => (Except.ok (LinkExpansion.file f), 1)

/-- FSContext::expand_link: run the loop with the full attempt budget. -/
def expand_link (ctx : FSContext K) (link : Link) : Except K LinkExpansion :=
  (expandLinkGo ctx MAX_LINK_EXPANSION_ATTEMPTS link).1

/-- The number of resolution attempts (loop iterations performing backend
calls) made by expand_link. -/
def expand_link_attempts (ctx : FSContext K) (link : Link) : Nat :=
  (expandLinkGo ctx MAX_LINK_EXPANSION_ATTEMPTS link).2

/-- FSContext::apply_path_glob as written in the source. The Wildcard arm
performs one scandir call and then hits
panic!("TODO: implement filtering of a DirectoryListing."); the DirWildcard
arm panics before any backend call. Panics are modelled as none; the second
component counts backend calls performed. -/
def apply_path_glob (ctx : FSContext K) (path_glob : PathGlob) :
    Option (Except (List K) (List PathStat)) × Nat :=
  match path_glob with
  | PathGlob.root => (some (Except.ok [root_stat]), 0)
  | PathGlob.wildcard canonical_dir _ _ =>
    match ctx.scandir canonical_dir with
    | Except.error k => (some (Except.error [k]), 1)
    | Except.ok _ => (none, 1)
  | PathGlob.dirWildcard _ _ _ _ => (none, 0)

/-- True of the classifications a finished match may carry: Dir or File,
never Link. -/
def statIsLeaf : Stat → Bool
  | Stat.link _ => false
  | Stat.dir _ => true
  | Stat.file _ => true

/-- The LinkExpansion outcome corresponding to a non-link Stat. -/
def statExpansion : Stat → LinkExpansion
  | Stat.dir d => LinkExpansion.dir d
  | Stat.file f => LinkExpansion.file f
  | Stat.link _ => LinkExpansion.loop ""

/-- Basename accessor for the path carried by a Stat. -/
def stat_path : Stat → PathBuf
  | Stat.link l => l.path
  | Stat.dir d => d.path
  | Stat.file f => f.path

/-- The last component of a path: the basename a wildcard is matched against. -/
def basename (p : PathBuf) : String := p.getLastD ""

/-- Modelled from the spec: the aggregable per-entry failures of one apply
call — a pending continuation signal from the backend, or a symlink-loop
diagnostic attached to the affected entry (spec sections 4.2 and 7; the
corresponding source arms are the panic placeholders in apply_path_glob). -/
inductive ApplyErr (K : Type) where
  | pending (k : K)
  | symlinkLoop (msg : String)

/-- Modelled from the spec: classify one directory entry, resolving a Link
through expand_link before it may be accepted (spec section 4.2; the source
marks this with a TODO in the Wildcard arm of apply_path_glob). -/
def resolveEntry (ctx : FSContext K) : Stat → Except K LinkExpansion
  | Stat.file f => Except.ok (LinkExpansion.file f)
  | Stat.dir d => Except.ok (LinkExpansion.dir d)
  | Stat.link l => expand_link ctx l

/-- Modelled from the spec: the Wildcard arm's listing filter — keep entries
whose basename satisfies the wildcard pattern, resolve links, turn Loop and
pending outcomes into aggregated errors, and build one resolved match per
accepted entry with symbolic path = symbolic_path + basename (spec section
4.2; missing from the source, whose Wildcard arm panics after scandir). -/
def wildcardMatches (ctx : FSContext K) (matcher : String → String → Bool)
    (symbolic_path : PathBuf) (wildcard : String) :
    List Stat → List PathStat × List (ApplyErr K)
  | [] => ([], [])
  | s :: rest =>
    let acc := wildcardMatches ctx matcher symbolic_path wildcard rest
    if matcher wildcard (basename (stat_path s)) then
      match resolveEntry ctx s with
      | Except.error k => (acc.1, ApplyErr.pending k :: acc.2)
      | Except.ok (LinkExpansion.loop m) => (acc.1, ApplyErr.symlinkLoop m :: acc.2)
      | Except.ok (LinkExpansion.file f) =>
        ({ path := symbolic_path ++ [basename (stat_path s)],
           stat := Stat.file f } :: acc.1, acc.2)
      | Except.ok (LinkExpansion.dir d) =>
        ({ path := symbolic_path ++ [basename (stat_path s)],
           stat := Stat.dir d } :: acc.1, acc.2)
    else acc

/-- Modelled from the spec: the DirWildcard arm's listing filter — keep the
entries whose basename satisfies the wildcard pattern and which are (or
resolve via expand_link to) directories, paired with their basenames;
pending and Loop outcomes of matching entries are aggregated as errors, and
matching files are dropped (spec section 4.2; missing from the source, whose
DirWildcard arm is a panic placeholder). -/
def dirWildcardDirs (ctx : FSContext K) (matcher : String → String → Bool)
    (wildcard : String) : List Stat → List (Dir × String) × List (ApplyErr K)
  | [] => ([], [])
  | s :: rest =>
    let acc := dirWildcardDirs ctx matcher wildcard rest
    if matcher wildcard (basename (stat_path s)) then
      match resolveEntry ctx s with
      | Except.error k => (acc.1, ApplyErr.pending k :: acc.2)
      | Except.ok (LinkExpansion.loop m) => (acc.1, ApplyErr.symlinkLoop m :: acc.2)
      | Except.ok (LinkExpansion.file _) => acc
      | Except.ok (LinkExpansion.dir d) => ((d, basename (stat_path s)) :: acc.1, acc.2)
    else acc

/-- Modelled from the spec: re-parse the remainder of a DirWildcard inside
each matched directory, with the matched directory as the new canonical dir
and symbolic_path + basename as the new symbolic path (spec section 4.2).
Parsing is the source parse, so a parse panic propagates as none. -/
def parseAll (symbolic_path : PathBuf) (remainder : PathBuf) :
    List (Dir × String) → Option (List PathGlob)
  | [] => some []
  | (d, bn) :: rest => do
    let gs ← parse d (symbolic_path ++ [bn]) remainder
    let more ← parseAll symbolic_path remainder rest
    pure (gs ++ more)

/-- Modelled from the spec: the worklist evaluation underlying glob-unit
application — apply each unit of the list, flattening resolved matches and
aggregating errors in derivation order; a DirWildcard's re-parsed sub-units
are applied with one unit less of recursion fuel (spec section 4.2). Fuel
exhaustion on a nonempty worklist is modelled as none, as is a panic of the
source parse. -/
def applyAux (ctx : FSContext K) (matcher : String → String → Bool) :
    Nat → List PathGlob → Option (List PathStat × List (ApplyErr K))
  | _, [] => some ([], [])
  | 0, _ :: _ => none
  | fuel + 1, PathGlob.root :: rest =>
    (applyAux ctx matcher fuel rest).map (fun p => (root_stat :: p.1, p.2))
  | fuel + 1, PathGlob.wildcard canonical_dir symbolic_path wildcard :: rest =>
    match ctx.scandir canonical_dir with
    | Except.error k =>
      (applyAux ctx matcher fuel rest).map (fun p => (p.1, ApplyErr.pending k :: p.2))
    | Except.ok entries =>
      let me := wildcardMatches ctx matcher symbolic_path wildcard entries
      (applyAux ctx matcher fuel rest).map (fun p => (me.1 ++ p.1, me.2 ++ p.2))
  | fuel + 1, PathGlob.dirWildcard canonical_dir symbolic_path wildcard remainder :: rest =>
    match ctx.scandir canonical_dir with
    | Except.error k =>
      (applyAux ctx matcher fuel rest).map (fun p => (p.1, ApplyErr.pending k :: p.2))
    | Except.ok entries =>
      let de := dirWildcardDirs ctx matcher wildcard entries
      match parseAll symbolic_path remainder de.1 with
      | none => none
      | some subglobs =>
        match applyAux ctx matcher fuel subglobs, applyAux ctx matcher fuel rest with
        | some sp, some rp => some (sp.1 ++ rp.1, de.2 ++ sp.2 ++ rp.2)
        | _, _ => none

/-- Modelled from the spec: apply one glob unit — a sequence of resolved
matches on success, or the aggregated sequence of pending/loop signals when
any sub-call could not complete (spec section 4.2). -/
def applySpec (ctx : FSContext K) (matcher : String → String → Bool) (fuel : Nat)
    (path_glob : PathGlob) : Option (Except (List (ApplyErr K)) (List PathStat)) :=
  (applyAux ctx matcher fuel [path_glob]).map
    (fun p => if p.2.isEmpty then Except.ok p.1 else Except.error p.2)

/-- The anchoring invariant of C10: a non-Root unit carries the given
directory as its canonical_dir and the given path as its symbolic_path. -/
def unitAnchoredAt (rel : Dir) (sym : PathBuf) : PathGlob → Prop
  | PathGlob.root => True
  | PathGlob.wildcard d s _ => d = rel ∧ s = sym
  | PathGlob.dirWildcard d s _ _ => d = rel ∧ s = sym

/-- A concrete synchronous backend holding a two-link chain: the link with
path made of i copies of "l" reads to target "t" :: that path; target ["t"]
stats to the link ["l"], and target ["t", "l"] stats to the file ["f"]. -/
def chainCtx : FSContext Unit :=
  { read_link := fun l => Except.ok ("t" :: l.path),
    stat := fun p =>
      if p = ["t"] then Except.ok (Stat.link { path := ["l"] })
      else if p = ["t", "l"] then Except.ok (Stat.file { path := ["f"] })
      else Except.error (),
    scandir := fun _ => Except.error () }

/-- The links of the concrete chain: link i has i copies of "l". -/
def chainLinks : Nat → Link := fun i => { path := List.replicate i "l" }

/-- The read_link targets of the concrete chain. -/
def chainTargets : Nat → PathBuf := fun i => "t" :: List.replicate i "l"

/-- A concrete synchronous backend on which every link points to another
link: every path stats to a link carrying that same path. -/
def cycleCtx : FSContext Unit :=
  { read_link := fun l => Except.ok l.path,
    stat := fun p => Except.ok (Stat.link { path := p }),
    scandir := fun _ => Except.ok [] }

/-- A concrete backend whose directory listing holds one file entry. -/
def wildcardProbeCtx : FSContext Unit :=
  { read_link := fun _ => Except.error (),
    stat := fun _ => Except.error (),
    scandir := fun _ => Except.ok [Stat.file { path := ["d", "f"] }] }

/-- A single-component matcher accepting every basename. -/
def acceptAll : String → String → Bool := fun _ _ => true

/-- A concrete backend for the DirWildcard probe: the listing holds one file
entry, hence zero matching subdirectories. -/
def dirProbeCtx : FSContext Unit :=
  { read_link := fun _ => Except.error (),
    stat := fun _ => Except.error (),
    scandir := fun _ => Except.ok [Stat.file { path := ["d", "f"] }] }

lemma expandLinkGo_chain_aux {K : Type} (ctx : FSContext K) (links : Nat → Link)
    (targets : Nat → PathBuf) (N : Nat) (final : Stat)
    (hrl : ∀ i, i < N → ctx.read_link (links i) = Except.ok (targets i))
    (hmid : ∀ i, i + 1 < N →
      ctx.stat (targets i) = Except.ok (Stat.link (links (i + 1))))
    (hlast : ctx.stat (targets (N - 1)) = Except.ok final)
    (hleaf : statIsLeaf final = true) :
    ∀ j i fuel, i + j = N - 1 → i < N → j < fuel →
      (expandLinkGo ctx fuel (links i)).1 = Except.ok (statExpansion final) := by
  intro j
  induction j with
  | zero =>
    intro i fuel hij hiN hjf
    obtain ⟨f, rfl⟩ : ∃ f, fuel = f + 1 := ⟨fuel - 1, by omega⟩
    have hi : i = N - 1 := by omega
    subst hi
    simp only [expandLinkGo, hrl _ hiN, hlast]
    cases final with
    | link l => simp [statIsLeaf] at hleaf
    | dir d => simp [statExpansion]
    | file f => simp [statExpansion]
  | succ j ih =>
    intro i fuel hij hiN hjf
    obtain ⟨f, rfl⟩ : ∃ f, fuel = f + 1 := ⟨fuel - 1, by omega⟩
    have hi1 : i + 1 < N := by omega
    simp only [expandLinkGo, hrl _ hiN, hmid _ hi1]
    exact ih (i + 1) f (by omega) hi1 (by omega)

lemma expandLinkGo_cycle_aux {K : Type} (ctx : FSContext K)
    (h : ∀ l, ∃ p l2, ctx.read_link l = Except.ok p ∧
      ctx.stat p = Except.ok (Stat.link l2)) :
    ∀ fuel l, ∃ msg,
      expandLinkGo ctx fuel l = (Except.ok (LinkExpansion.loop msg), fuel) := by
  intro fuel
  induction fuel with
  | zero => exact fun l => ⟨loopDiagnostic l, rfl⟩
  | succ f ih =>
    intro l
    obtain ⟨p, l2, hr, hs⟩ := h l
    obtain ⟨msg, hm⟩ := ih l2
    exact ⟨msg, by simp only [expandLinkGo, hr, hs, hm]⟩

lemma wildcardMatches_leaf {K : Type} (ctx : FSContext K)
    (matcher : String → String → Bool) (sym : PathBuf) (w : String) :
    ∀ entries ps, ps ∈ (wildcardMatches ctx matcher sym w entries).1 →
      statIsLeaf ps.stat = true := by
  intro entries
  induction entries with
  | nil => intro ps hps; simp [wildcardMatches] at hps
  | cons s rest ih =>
    intro ps hps
    by_cases hm : matcher w (basename (stat_path s)) = true
    · rw [wildcardMatches] at hps
      simp only [hm, if_true] at hps
      cases hr : resolveEntry ctx s with
      | error k => rw [hr] at hps; exact ih ps hps
      | ok le =>
        cases le with
        | loop m => rw [hr] at hps; exact ih ps hps
        | file f =>
          rw [hr] at hps
          rcases List.mem_cons.mp hps with h1 | h1
          · subst h1; rfl
          · exact ih ps h1
        | dir d =>
          rw [hr] at hps
          rcases List.mem_cons.mp hps with h1 | h1
          · subst h1; rfl
          · exact ih ps h1
    · rw [wildcardMatches] at hps
      simp only [hm, if_false] at hps
      exact ih ps hps

lemma applyAux_leaf {K : Type} (ctx : FSContext K)
    (matcher : String → String → Bool) :
    ∀ fuel gs res, applyAux ctx matcher fuel gs = some res →
      ∀ ps, ps ∈ res.1 → statIsLeaf ps.stat = true := by
  intro fuel
  induction fuel with
  | zero =>
    intro gs res h ps hps
    cases gs with
    | nil =>
      simp [applyAux] at h
      subst h
      simp at hps
    | cons g rest => simp [applyAux] at h
  | succ f ih =>
    intro gs res h ps hps
    cases gs with
    | nil =>
      simp [applyAux] at h
      subst h
      simp at hps
    | cons g rest =>
      cases g with
      | root =>
        rw [applyAux] at h
        cases hr : applyAux ctx matcher f rest with
        | none => rw [hr] at h; simp at h
        | some p =>
          simp only [hr, Option.map_some', Option.some.injEq] at h
          subst h
          rcases List.mem_cons.mp hps with h1 | h1
          · subst h1; rfl
          · exact ih rest p hr ps h1
      | wildcard canonical_dir symbolic_path wildcard =>
        rw [applyAux] at h
        cases hsc : ctx.scandir canonical_dir with
        | error k =>
          cases hr : applyAux ctx matcher f rest with
          | none => simp [hsc, hr] at h
          | some p =>
            simp only [hsc, hr, Option.map_some', Option.some.injEq] at h
            subst h
            exact ih rest p hr ps hps
        | ok entries =>
          cases hr : applyAux ctx matcher f rest with
          | none => simp [hsc, hr] at h
          | some p =>
            simp only [hsc, hr, Option.map_some', Option.some.injEq] at h
            subst h
            rcases List.mem_append.mp hps with h1 | h1
            · exact wildcardMatches_leaf ctx matcher symbolic_path wildcard entries ps h1
            · exact ih rest p hr ps h1
      | dirWildcard canonical_dir symbolic_path wildcard remainder =>
        rw [applyAux] at h
        cases hsc : ctx.scandir canonical_dir with
        | error k =>
          cases hr : applyAux ctx matcher f rest with
          | none => simp [hsc, hr] at h
          | some p =>
            simp only [hsc, hr, Option.map_some', Option.some.injEq] at h
            subst h
            exact ih rest p hr ps hps
        | ok entries =>
          simp only [hsc] at h
          cases hpa : parseAll symbolic_path remainder
              (dirWildcardDirs ctx matcher wildcard entries).1 with
          | none => simp [hpa] at h
          | some subglobs =>
            simp only [hpa] at h
            cases hs1 : applyAux ctx matcher f subglobs with
            | none => simp [hs1] at h
            | some sp =>
              cases hs2 : applyAux ctx matcher f rest with
              | none => simp [hs1, hs2] at h
              | some rp =>
                simp only [hs1, hs2, Option.some.injEq] at h
                subst h
                rcases List.mem_append.mp hps with h1 | h1
                · exact ih subglobs sp hs1 ps h1
                · exact ih rest rp hs2 ps h1

lemma dirWildcardDirs_none {K : Type} (ctx : FSContext K)
    (matcher : String → String → Bool) (w : String) :
    ∀ entries,
      (∀ s ∈ entries, matcher w (basename (stat_path s)) = true →
        ∃ f, resolveEntry ctx s = Except.ok (LinkExpansion.file f)) →
      dirWildcardDirs ctx matcher w entries = ([], []) := by
  intro entries
  induction entries with
  | nil => intro _; rfl
  | cons s rest ih =>
    intro h
    have hrest := ih (fun t ht hm => h t (List.mem_cons_of_mem _ ht) hm)
    by_cases hm : matcher w (basename (stat_path s)) = true
    · obtain ⟨f, hf⟩ := h s (List.mem_cons_self _ _) hm
      rw [dirWildcardDirs, hrest]
      simp [hm, hf]
    · rw [dirWildcardDirs, hrest]
      simp [hm]

lemma parseParts_anchored (rel : Dir) (sym : PathBuf) (parts : List String)
    (gs : List PathGlob) (h : parseParts rel sym parts = some gs) :
    ∀ g ∈ gs, unitAnchoredAt rel sym g := by
  unfold parseParts at h
  by_cases hroot : rel.path = ["."] ∧ parts = ["."]
  · rw [if_pos hroot] at h
    cases h
    intro g hg
    simp only [List.mem_singleton] at hg
    subst hg
    trivial
  · rw [if_neg hroot] at h
    split at h
    next => exact absurd h (by simp)
    next p0 rest =>
      split at h
      next hds =>
        split at h
        next =>
          cases h
          intro g hg
          rcases List.mem_cons.mp hg with h1 | h1
          · subst h1; exact ⟨rfl, rfl⟩
          · simp only [List.mem_singleton] at h1
            subst h1
            exact ⟨rfl, rfl⟩
        next p1 rest2 =>
          cases h
          intro g hg
          rcases List.mem_cons.mp hg with h1 | h1
          · subst h1; exact ⟨rfl, rfl⟩
          · simp only [List.mem_singleton] at h1
            subst h1
            cases rest2 with
            | nil => exact ⟨rfl, rfl⟩
            | cons q qs => exact ⟨rfl, rfl⟩
      next hds =>
        split at h
        next =>
          cases h
          intro g hg
          simp only [List.mem_singleton] at hg
          subst hg
          exact ⟨rfl, rfl⟩
        next q qs =>
          cases h
          intro g hg
          simp only [List.mem_singleton] at hg
          subst hg
          exact ⟨rfl, rfl⟩

lemma parse_anchored (rel : Dir) (sym : PathBuf) (fs : PathBuf)
    (gs : List PathGlob) (h : parse rel sym fs = some gs) :
    ∀ g ∈ gs, unitAnchoredAt rel sym g := by
  unfold parse at h
  cases hn : normalize_doublestar fs with
  | none =>
    rw [hn] at h
    exact absurd h (by simp)
  | some parts =>
    rw [hn] at h
    exact parseParts_anchored rel sym parts gs h

lemma mapM_loop_parse_anchored (rel : Dir) :
    ∀ fss acc parsed,
      List.mapM.loop (fun fs => parse rel rel.path fs) fss acc = some parsed →
      (∀ gs ∈ acc, ∀ g ∈ gs, unitAnchoredAt rel rel.path g) →
      ∀ gs ∈ parsed, ∀ g ∈ gs, unitAnchoredAt rel rel.path g := by
  intro fss
  induction fss with
  | nil =>
    intro acc parsed h hacc
    simp only [List.mapM.loop] at h
    cases h
    intro gs hgs
    exact hacc gs (List.mem_reverse.mp hgs)
  | cons fs rest ih =>
    intro acc parsed h hacc
    simp only [List.mapM.loop] at h
    cases hp : parse rel rel.path fs with
    | none => rw [hp] at h; simp at h
    | some gs0 =>
      rw [hp] at h
      refine ih (gs0 :: acc) parsed h ?_
      intro gs hgs
      rcases List.mem_cons.mp hgs with h1 | h1
      · subst h1
        exact parse_anchored rel rel.path fs gs hp
      · exact hacc gs h1

/-- C1: the claim says create is total and never panics for every base
directory and pattern vector. It is not: for the single-component pattern
"a", normalize_doublestar drains the whole component vector (drain(..idx)
removes the first component unconditionally), after which parse indexes
parts[0] out of bounds and panics; the embedding returns none. -/
theorem create_single_component_panics :
    create { path := ["."] } [["a"]] = none := rfl

/-- C2: the claim says create(dir, ["a/b"]) yields exactly one unit
DirWildcard(wildcard="a", remainder="b"). On the code as written,
normalize_doublestar drains the leading component "a", so parse sees only
["b"] and yields the single unit Wildcard(wildcard="b") instead. -/
theorem create_a_b_yields_wildcard_b :
    create { path := ["base"] } [["a", "b"]] =
      some [PathGlob.wildcard { path := ["base"] } ["base"] "b"] := rfl

/-- C3: the claim says a leading-doublestar pattern yields exactly two units.
On the code as written, "**" is drained entirely by normalize_doublestar and
parse then panics indexing parts[0] (none), while "**/foo" is reduced to
["foo"] and yields the single unit Wildcard(wildcard="foo"). -/
theorem create_doublestar_eval :
    create { path := ["base"] } [["**"]] = none ∧
      create { path := ["base"] } [["**", "foo"]] =
        some [PathGlob.wildcard { path := ["base"] } ["base"] "foo"] :=
  ⟨rfl, rfl⟩

/-- C4: the claim says create(root=".", patterns=["."]) yields exactly the
Root unit. On the code as written, normalize_doublestar drains the "."
component first, so the root check (parts == ["."]) fails and parse panics
indexing parts[0] into the emptied vector; the embedding returns none. -/
theorem create_root_request_panics :
    create { path := ["."] } [["."]] = none := rfl

/-- C5: for every base directory dir, create(dir, ["a/**/**/b"]) and
create(dir, ["a/**/b"]) yield identical glob sequences: both runs of
consecutive doublestars are removed by normalize_doublestar (along with the
leading component), so both patterns parse to the same unit list. -/
theorem create_doublestar_collapse_idempotent (dir : Dir) :
    create dir [["a", "**", "**", "b"]] = create dir [["a", "**", "b"]] := by
  have h : parse dir dir.path ["a", "**", "**", "b"] =
      parse dir dir.path ["a", "**", "b"] := by
    simp [parse, normalize_doublestar, doublestarRun, DOUBLE_STAR]
  simp [create, List.mapM, List.mapM.loop, h]

/-- C6: for every continuation type and every backend context, applying the
Root glob returns exactly one resolved match, whose symbolic path is empty
and whose classification is Dir of the empty path, with zero backend calls
performed. -/
theorem apply_root_no_backend (K : Type) (ctx : FSContext K) :
    apply_path_glob ctx PathGlob.root =
      (some (Except.ok [{ path := [], stat := Stat.dir { path := [] } }]), 0) := rfl

/-- C7: over a chain of N links (N at least 1 and below the 64-attempt
bound) whose backend calls all complete synchronously, expand_link returns
the final File or Dir classification at the chain's end; and over a backend
on which every link resolves to another link (a cycle), expand_link returns
a Loop outcome carrying a diagnostic as an ordinary Ok result, after exactly
64 resolution attempts. -/
theorem expand_link_chain_and_cycle (K : Type) (ctx ctxC : FSContext K)
    (links : Nat → Link) (targets : Nat → PathBuf) (N : Nat) (final : Stat)
    (start : Link) :
    (1 ≤ N → N < MAX_LINK_EXPANSION_ATTEMPTS →
      (∀ i, i < N → ctx.read_link (links i) = Except.ok (targets i)) →
      (∀ i, i + 1 < N →
        ctx.stat (targets i) = Except.ok (Stat.link (links (i + 1)))) →
      ctx.stat (targets (N - 1)) = Except.ok final →
      statIsLeaf final = true →
      expand_link ctx (links 0) = Except.ok (statExpansion final)) ∧
    ((∀ l, ∃ p l2, ctxC.read_link l = Except.ok p ∧
        ctxC.stat p = Except.ok (Stat.link l2)) →
      (∃ msg, expand_link ctxC start = Except.ok (LinkExpansion.loop msg)) ∧
        expand_link_attempts ctxC start = 64) := by
  constructor
  · intro hN hNmax hrl hmid hlast hleaf
    have hmax : MAX_LINK_EXPANSION_ATTEMPTS = 64 := rfl
    exact expandLinkGo_chain_aux ctx links targets N final hrl hmid hlast hleaf
      (N - 1) 0 MAX_LINK_EXPANSION_ATTEMPTS (by omega) (by omega) (by omega)
  · intro h
    obtain ⟨msg, hm⟩ := expandLinkGo_cycle_aux ctxC h MAX_LINK_EXPANSION_ATTEMPTS start
    refine ⟨⟨msg, ?_⟩, ?_⟩
    · simp [expand_link, hm]
    · show (expandLinkGo ctxC MAX_LINK_EXPANSION_ATTEMPTS start).2 = 64
      rw [hm]
      rfl

/-- Witness for C7: the two-link chain context resolves to the file at the
chain's end, and the cyclic context yields a Loop outcome after exactly 64
attempts. -/
theorem expand_link_chain_and_cycle_witness :
    expand_link chainCtx (chainLinks 0) =
      Except.ok (statExpansion (Stat.file { path := ["f"] })) ∧
    ((∃ msg, expand_link cycleCtx { path := ["c"] } =
        Except.ok (LinkExpansion.loop msg)) ∧
      expand_link_attempts cycleCtx { path := ["c"] } = 64) := by
  have t := expand_link_chain_and_cycle Unit chainCtx cycleCtx chainLinks
    chainTargets 2 (Stat.file { path := ["f"] }) { path := ["c"] }
  refine ⟨?_, ?_⟩
  · exact t.1 (by omega) (by decide) (fun i _ => rfl)
      (fun i hi =>
        match i, hi with
        | 0, _ => rfl
        | n + 1, h => absurd h (by omega))
      rfl rfl
  · exact t.2 (fun l => ⟨l.path, { path := l.path }, rfl, rfl⟩)

/-- C8: applying a DirWildcard unit over a directory whose listing contains
zero subdirectories matching the wildcard pattern (every matching entry is a
file, or a link resolving to a file) returns success with an empty match
set, not an error. -/
theorem apply_dir_wildcard_empty_success (K : Type) (ctx : FSContext K)
    (matcher : String → String → Bool) (canonical_dir : Dir)
    (symbolic_path : PathBuf) (wildcard : String) (remainder : PathBuf)
    (fuel : Nat) (entries : List Stat)
    (hscan : ctx.scandir canonical_dir = Except.ok entries)
    (hmatch : ∀ s ∈ entries, matcher wildcard (basename (stat_path s)) = true →
      ∃ f, resolveEntry ctx s = Except.ok (LinkExpansion.file f)) :
    applySpec ctx matcher (fuel + 1)
        (PathGlob.dirWildcard canonical_dir symbolic_path wildcard remainder) =
      some (Except.ok []) := by
  have hd := dirWildcardDirs_none ctx matcher wildcard entries hmatch
  rw [applySpec, applyAux]
  simp only [hscan, hd]
  have hnil : applyAux ctx matcher fuel [] = some ([], []) := by
    cases fuel <;> rfl
  simp [parseAll, hnil]

/-- Witness for C8: the probe backend lists one file entry, which matches the
wildcard yet is not a directory, and the DirWildcard application succeeds
with the empty match set. -/
theorem apply_dir_wildcard_empty_success_witness :
    applySpec dirProbeCtx acceptAll 1
        (PathGlob.dirWildcard { path := ["d"] } ["d"] "*" ["r"]) =
      some (Except.ok []) := by
  exact apply_dir_wildcard_empty_success Unit dirProbeCtx acceptAll
    { path := ["d"] } ["d"] "*" ["r"] 0 [Stat.file { path := ["d", "f"] }] rfl
    (by
      intro s hs _
      simp only [List.mem_singleton] at hs
      subst hs
      exact ⟨{ path := ["d", "f"] }, rfl⟩)

/-- C9: every resolved match returned by a successful application of any
glob unit carries a File or Dir classification, never a Link: entries
classified as Link are resolved through expand_link before appearing in the
output. -/
theorem apply_matches_never_link (K : Type) (ctx : FSContext K)
    (matcher : String → String → Bool) (fuel : Nat) (path_glob : PathGlob)
    (ms : List PathStat)
    (h : applySpec ctx matcher fuel path_glob = some (Except.ok ms)) :
    ∀ ps, ps ∈ ms → statIsLeaf ps.stat = true := by
  intro ps hps
  unfold applySpec at h
  cases ha : applyAux ctx matcher fuel [path_glob] with
  | none => simp [ha] at h
  | some p =>
    simp only [ha, Option.map_some', Option.some.injEq] at h
    by_cases he : p.2.isEmpty
    · simp only [he, if_true] at h
      have hp1 : p.1 = ms := by
        cases h
        rfl
      exact applyAux_leaf ctx matcher fuel [path_glob] p ha ps (hp1 ▸ hps)
    · simp [he] at h

/-- Witness for C9: the single match produced by a Wildcard application over
the probe backend carries a File classification. -/
theorem apply_matches_never_link_witness :
    statIsLeaf (Stat.file { path := ["d", "f"] } : Stat) = true := by
  exact apply_matches_never_link Unit wildcardProbeCtx acceptAll 1
    (PathGlob.wildcard { path := ["d"] } ["d"] "*")
    [{ path := ["d", "f"], stat := Stat.file { path := ["d", "f"] } }]
    rfl
    { path := ["d", "f"], stat := Stat.file { path := ["d", "f"] } }
    (by simp)

/-- C10: every Wildcard or DirWildcard unit produced by create(relative_to,
patterns) has canonical_dir equal to relative_to and symbolic_path equal to
relative_to's path: top-level parsing never descends into subdirectories. -/
theorem create_units_anchored (relative_to : Dir) (filespecs : List PathBuf)
    (globs : List PathGlob) (h : create relative_to filespecs = some globs) :
    ∀ g ∈ globs, unitAnchoredAt relative_to relative_to.path g := by
  unfold create at h
  cases hm : filespecs.mapM (fun fs => parse relative_to relative_to.path fs) with
  | none => rw [hm] at h; simp at h
  | some parsed =>
    rw [hm] at h
    simp only [Option.map_some', Option.some.injEq] at h
    subst h
    intro g hg
    obtain ⟨gs, hgs, hggs⟩ := List.mem_flatten.mp hg
    have hloop : List.mapM.loop (fun fs => parse relative_to relative_to.path fs)
        filespecs [] = some parsed := hm
    exact mapM_loop_parse_anchored relative_to filespecs [] parsed hloop
      (by simp) gs hgs g hggs

/-- Witness for C10: the unit produced by parsing "a/b" under base directory
["x"] is anchored at that directory and its path. -/
theorem create_units_anchored_witness :
    unitAnchoredAt { path := ["x"] } ["x"]
      (PathGlob.wildcard { path := ["x"] } ["x"] "b") := by
  exact create_units_anchored { path := ["x"] } [["a", "b"]]
    [PathGlob.wildcard { path := ["x"] } ["x"] "b"] rfl
    (PathGlob.wildcard { path := ["x"] } ["x"] "b") (by simp)

end Fs
